import Mathlib

/-!
Verification of the fornjot B-rep kernel's approximation-and-triangulation
pipeline, shallowly embedded from the Rust sources.

Floating-point scalars (`Scalar`, a wrapper around `f64`) are modelled as
real numbers; machine indices as `Nat`/`ℤ`.
-/

namespace Fornjot

open Real

/-! ## Path approximation (crates/fj-core/src/algorithms/approx/path.rs)

`PathApproxParams::for_circle` computes
`num_vertices = Scalar::max(PI / (1 - tolerance/radius).acos(), 3.).ceil()`
and `increment = TAU / num_vertices`.  `radius` is `circle.a().magnitude()`;
we parametrize directly by the radius (the magnitude computation lives in the
external `fj-math` crate). -/

/-- `num_vertices_to_approx_full_circle` from `PathApproxParams::for_circle`. -/
noncomputable def numVertices (radius tolerance : ℝ) : ℝ :=
  ((⌈max (π / Real.arccos (1 - tolerance / radius)) 3⌉ : ℤ) : ℝ)

/-- `increment = Scalar::TAU / num_vertices_to_approx_full_circle`. -/
noncomputable def increment (radius tolerance : ℝ) : ℝ :=
  (2 * π) / numVertices radius tolerance

/-- The ascending integer lattice walk `[lo, lo+1, ..., hi]` (empty when
`hi < lo`).  The source's `iter::from_fn` loop in `PathApproxParams::points`
steps a `Scalar` counter `i` by `±1` from `start` until it passes `end`; all
values taken by `i` are integers (`min.floor() + 1.` plus an integer), so the
loop is embedded as the corresponding integer range. -/
def latticeAsc (lo hi : ℤ) : List ℤ :=
  (List.range (hi + 1 - lo).toNat).map (fun (k : ℕ) => lo + (k : ℤ))

/-- `PathApproxParams::points`, in lattice units: boundary endpoints are first
divided by the increment (`a`, `b` here are the divided values), the direction
is the sign of `b - a` (`Sign::Zero` shares the `Positive` branch), the open
interval is clamped inward to `⌊min⌋ + 1 … ⌈max⌉ - 1`, and the lattice is
walked from the starting clamp to the ending clamp in that direction. -/
noncomputable def pointsIndices (a b : ℝ) : List ℤ :=
  let lo : ℤ := ⌊min a b⌋ + 1
  let hi : ℤ := ⌈max a b⌉ - 1
  if b < a then (latticeAsc lo hi).reverse else latticeAsc lo hi

/-- `PathApproxParams::points`: each emitted parameter is
`t = increment * i` for a walked lattice index `i`. -/
noncomputable def points (inc a b : ℝ) : List ℝ :=
  (pointsIndices (a / inc) (b / inc)).map (fun (i : ℤ) => inc * (i : ℝ))

theorem mem_latticeAsc {lo hi i : ℤ} :
    i ∈ latticeAsc lo hi ↔ lo ≤ i ∧ i ≤ hi := by
  unfold latticeAsc
  simp only [List.mem_map, List.mem_range]
  constructor
  · rintro ⟨k, hk, rfl⟩
    omega
  · rintro ⟨h1, h2⟩
    exact ⟨(i - lo).toNat, by omega, by omega⟩

theorem latticeAsc_eq_nil {lo hi : ℤ} (h : hi < lo) : latticeAsc lo hi = [] := by
  unfold latticeAsc
  have : (hi + 1 - lo).toNat = 0 := by omega
  rw [this]
  rfl

theorem pointsIndices_swap (a b : ℝ) :
    pointsIndices b a = (pointsIndices a b).reverse := by
  unfold pointsIndices
  rw [min_comm b a, max_comm b a]
  rcases lt_trichotomy a b with h | h | h
  · rw [if_pos h, if_neg (not_lt.mpr h.le)]
  · subst h
    rw [if_neg (lt_irrefl a)]
    have hlt : (⌈max a a⌉ - 1 : ℤ) < ⌊min a a⌋ + 1 := by
      have := Int.ceil_le_floor_add_one a
      simp only [max_self, min_self]
      omega
    rw [latticeAsc_eq_nil hlt]
    rfl
  · rw [if_pos h, if_neg (not_lt.mpr h.le), List.reverse_reverse]

theorem mem_pointsIndices {a b : ℝ} {i : ℤ} :
    i ∈ pointsIndices a b ↔ ⌊min a b⌋ + 1 ≤ i ∧ i ≤ ⌈max a b⌉ - 1 := by
  unfold pointsIndices
  split
  · rw [List.mem_reverse, mem_latticeAsc]
  · rw [mem_latticeAsc]

/-- Every parameter in the approximation is an integer multiple of the
increment: the emitted values are exactly `inc * i` for walked indices `i`. -/
theorem points_lattice (inc a b : ℝ) :
    (points inc a b).Forall (fun p => ∃ k : ℤ, p = inc * (k : ℝ)) := by
  rw [List.forall_iff_forall_mem]
  intro p hp
  simp only [points, List.mem_map] at hp
  obtain ⟨k, -, hk⟩ := hp
  exact ⟨k, hk.symm⟩

/-! ### Numeric bounds on `arccos`, needed to evaluate `numVertices` -/

theorem arccos_lt_of_cos_lt {x B : ℝ} (hB0 : 0 ≤ B) (hx1 : x ≤ 1)
    (h : Real.cos B < x) : Real.arccos x < B := by
  by_contra hcon
  push_neg at hcon
  have hm1 : (-1 : ℝ) ≤ x := le_trans (Real.neg_one_le_cos B) h.le
  have hle : Real.cos (Real.arccos x) ≤ Real.cos B := by
    rcases eq_or_lt_of_le hcon with he | hlt
    · rw [← he]
    · exact (Real.cos_lt_cos_of_nonneg_of_le_pi hB0 (Real.arccos_le_pi x) hlt).le
  rw [Real.cos_arccos hm1 hx1] at hle
  linarith

theorem lt_arccos_of_lt_cos {x B : ℝ} (hBpi : B ≤ π) (hm1 : -1 ≤ x)
    (h : x < Real.cos B) : B < Real.arccos x := by
  by_contra hcon
  push_neg at hcon
  have hx1 : x ≤ 1 := le_trans h.le (Real.cos_le_one B)
  have hle : Real.cos B ≤ Real.cos (Real.arccos x) := by
    rcases eq_or_lt_of_le hcon with he | hlt
    · rw [he]
    · exact (Real.cos_lt_cos_of_nonneg_of_le_pi (Real.arccos_nonneg x) hBpi hlt).le
  rw [Real.cos_arccos hm1 hx1] at hle
  linarith

theorem sqrt_two_gt : (1.25 : ℝ) < Real.sqrt 2 := by
  nlinarith [Real.sq_sqrt (show (0:ℝ) ≤ 2 by norm_num), Real.sqrt_nonneg 2]

theorem sqrt_three_bounds : (1.73 : ℝ) < Real.sqrt 3 ∧ Real.sqrt 3 < 1.8 := by
  constructor <;>
    nlinarith [Real.sq_sqrt (show (0:ℝ) ≤ 3 by norm_num), Real.sqrt_nonneg 3]

/-- `cos (π/7)` exceeds `0.9`.  Uses the minimal polynomial
`8c³ − 4c² − 4c + 1 = 0` of `cos (π/7)`, obtained from
`cos (3·π/7) = −cos (4·π/7)`. -/
theorem cos_pi_div_seven_gt : (0.9 : ℝ) < Real.cos (π / 7) := by
  set c := Real.cos (π / 7) with hc
  have h2 : Real.cos (2 * (π / 7)) = 2 * c ^ 2 - 1 := Real.cos_two_mul _
  have h3 : Real.cos (3 * (π / 7)) = 4 * c ^ 3 - 3 * c := Real.cos_three_mul _
  have h4 : Real.cos (4 * (π / 7)) = 2 * (2 * c ^ 2 - 1) ^ 2 - 1 := by
    have h42 : (4 : ℝ) * (π / 7) = 2 * (2 * (π / 7)) := by ring
    rw [h42, Real.cos_two_mul, h2]
  have hsub : Real.cos (3 * (π / 7)) = -Real.cos (4 * (π / 7)) := by
    have h34 : (3 : ℝ) * (π / 7) = π - 4 * (π / 7) := by ring
    rw [h34, Real.cos_pi_sub]
  rw [h3, h4] at hsub
  have hquart : 8 * c ^ 4 + 4 * c ^ 3 - 8 * c ^ 2 - 3 * c + 1 = 0 := by
    linear_combination hsub
  have hlb : Real.cos (π / 6) < c := by
    apply Real.cos_lt_cos_of_nonneg_of_le_pi (by positivity)
      (by linarith [Real.pi_pos])
    have := Real.pi_pos
    linarith
  rw [Real.cos_pi_div_six] at hlb
  have hc86 : (0.86 : ℝ) < c := by
    have := sqrt_three_bounds.1
    linarith
  have hcube : 8 * c ^ 3 - 4 * c ^ 2 - 4 * c + 1 = 0 := by
    have hfac : (c + 1) * (8 * c ^ 3 - 4 * c ^ 2 - 4 * c + 1) = 0 := by
      linear_combination hquart
    rcases mul_eq_zero.mp hfac with h | h
    · exfalso; linarith
    · exact h
  have hfac2 : (c - 0.9) * (8 * c ^ 2 + 3.2 * c - 1.12) = 0.008 := by
    linear_combination hcube
  have hg : (0 : ℝ) < 8 * c ^ 2 + 3.2 * c - 1.12 := by nlinarith [hc86]
  by_contra hcon
  push_neg at hcon
  have hnn : 0 ≤ (0.9 - c) * (8 * c ^ 2 + 3.2 * c - 1.12) :=
    mul_nonneg (by linarith) hg.le
  have hneg : (0.9 - c) * (8 * c ^ 2 + 3.2 * c - 1.12) = -0.008 := by
    linear_combination -hfac2
  rw [hneg] at hnn
  linarith

theorem arccos_09_bounds : π / 7 < Real.arccos 0.9 ∧ Real.arccos 0.9 < π / 6 := by
  constructor
  · exact lt_arccos_of_lt_cos (by linarith [Real.pi_pos]) (by norm_num)
      cos_pi_div_seven_gt
  · apply arccos_lt_of_cos_lt (by positivity) (by norm_num)
    rw [Real.cos_pi_div_six]
    have := sqrt_three_bounds.2
    linarith

/-- Quartic Taylor bounds on `cos` at `π/22` and `π/23`, via `Real.cos_bound`. -/
theorem cos_pi_div_22_lt : Real.cos (π / 22) < 0.99 := by
  have hpos : (0 : ℝ) < π / 22 := by positivity
  have hlb : (0.1427996 : ℝ) < π / 22 := by linarith [Real.pi_gt_d6]
  have hub : π / 22 < (0.14281 : ℝ) := by linarith [Real.pi_lt_d6]
  have habs := Real.cos_bound (x := π / 22) (by rw [abs_of_pos hpos]; linarith)
  rw [abs_of_pos hpos] at habs
  have h1 := (abs_le.mp habs).2
  have hx2 : (0.1427996 : ℝ) ^ 2 < (π / 22) ^ 2 :=
    pow_lt_pow_left₀ hlb (by norm_num) (by norm_num)
  have hx4 : (π / 22) ^ 4 < (0.14281 : ℝ) ^ 4 :=
    pow_lt_pow_left₀ hub hpos.le (by norm_num)
  nlinarith [h1, hx2, hx4]

theorem cos_pi_div_23_gt : (0.99 : ℝ) < Real.cos (π / 23) := by
  have hpos : (0 : ℝ) < π / 23 := by positivity
  have hub : π / 23 < (0.136592 : ℝ) := by linarith [Real.pi_lt_d6]
  have habs := Real.cos_bound (x := π / 23) (by rw [abs_of_pos hpos]; linarith)
  rw [abs_of_pos hpos] at habs
  have h1 := (abs_le.mp habs).1
  have hx2 : (π / 23) ^ 2 < (0.136592 : ℝ) ^ 2 :=
    pow_lt_pow_left₀ hub hpos.le (by norm_num)
  have hx4 : (π / 23) ^ 4 < (0.136592 : ℝ) ^ 4 :=
    pow_lt_pow_left₀ hub hpos.le (by norm_num)
  nlinarith [h1, hx2, hx4]

theorem arccos_099_bounds :
    π / 23 < Real.arccos 0.99 ∧ Real.arccos 0.99 < π / 22 := by
  constructor
  · exact lt_arccos_of_lt_cos (by linarith [Real.pi_pos]) (by norm_num)
      cos_pi_div_23_gt
  · exact arccos_lt_of_cos_lt (by positivity) (by norm_num) cos_pi_div_22_lt

theorem arccos_0625_bounds :
    π / 4 < Real.arccos 0.625 ∧ Real.arccos 0.625 < π / 3 := by
  constructor
  · apply lt_arccos_of_lt_cos (by linarith [Real.pi_pos]) (by norm_num)
    rw [Real.cos_pi_div_four]
    have := sqrt_two_gt
    linarith
  · apply arccos_lt_of_cos_lt (by positivity) (by norm_num)
    rw [Real.cos_pi_div_three]
    norm_num

/-! ### Evaluating `numVertices` at the spec's example inputs -/

theorem numVertices_ge_three (radius tolerance : ℝ) :
    (3 : ℝ) ≤ numVertices radius tolerance :=
  le_trans (le_max_right _ _) (Int.le_ceil _)

theorem increment_pos (radius tolerance : ℝ) :
    0 < increment radius tolerance :=
  div_pos (by positivity)
    (lt_of_lt_of_le (by norm_num) (numVertices_ge_three radius tolerance))

theorem numVertices_one_half : numVertices 1 0.5 = 3 := by
  unfold numVertices
  have h05 : (1 : ℝ) - 0.5 / 1 = 1 / 2 := by norm_num
  rw [h05]
  have ha : Real.arccos (1 / 2) = π / 3 := by
    rw [← Real.cos_pi_div_three]
    exact Real.arccos_cos (by positivity) (by linarith [Real.pi_pos])
  rw [ha]
  have hd : π / (π / 3) = 3 := by
    field_simp
  rw [hd, max_self]
  norm_num

theorem numVertices_one_tenth : numVertices 1 0.1 = 7 := by
  unfold numVertices
  have h09 : (1 : ℝ) - 0.1 / 1 = 0.9 := by norm_num
  rw [h09]
  obtain ⟨hA1, hA2⟩ := arccos_09_bounds
  have hApos : 0 < Real.arccos 0.9 := lt_trans (by positivity) hA1
  have h6 : (6 : ℝ) < π / Real.arccos 0.9 := by
    rw [lt_div_iff₀ hApos]
    linarith
  have h7 : π / Real.arccos 0.9 < 7 := by
    rw [div_lt_iff₀ hApos]
    linarith
  rw [max_eq_left (by linarith)]
  have hceil : ⌈π / Real.arccos 0.9⌉ = (7 : ℤ) := by
    rw [Int.ceil_eq_iff]
    constructor
    · push_cast
      linarith
    · push_cast
      linarith
  rw [hceil]
  norm_num

theorem numVertices_one_hundredth : numVertices 1 0.01 = 23 := by
  unfold numVertices
  have h099 : (1 : ℝ) - 0.01 / 1 = 0.99 := by norm_num
  rw [h099]
  obtain ⟨hA1, hA2⟩ := arccos_099_bounds
  have hApos : 0 < Real.arccos 0.99 := lt_trans (by positivity) hA1
  have h22 : (22 : ℝ) < π / Real.arccos 0.99 := by
    rw [lt_div_iff₀ hApos]
    linarith
  have h23 : π / Real.arccos 0.99 ≤ 23 := by
    rw [div_le_iff₀ hApos]
    linarith
  rw [max_eq_left (by linarith)]
  have hceil : ⌈π / Real.arccos 0.99⌉ = (23 : ℤ) := by
    rw [Int.ceil_eq_iff]
    constructor
    · push_cast
      linarith
    · push_cast
      linarith
  rw [hceil]
  norm_num

theorem numVertices_test_tolerance : numVertices 1 0.375 = 4 := by
  unfold numVertices
  have h0625 : (1 : ℝ) - 0.375 / 1 = 0.625 := by norm_num
  rw [h0625]
  obtain ⟨hA1, hA2⟩ := arccos_0625_bounds
  have hApos : 0 < Real.arccos 0.625 := lt_trans (by positivity) hA1
  have h3 : (3 : ℝ) < π / Real.arccos 0.625 := by
    rw [lt_div_iff₀ hApos]
    linarith
  have h4 : π / Real.arccos 0.625 < 4 := by
    rw [div_lt_iff₀ hApos]
    linarith
  rw [max_eq_left (by linarith)]
  have hceil : ⌈π / Real.arccos 0.625⌉ = (4 : ℤ) := by
    rw [Int.ceil_eq_iff]
    constructor
    · push_cast
      linarith
    · push_cast
      linarith
  rw [hceil]
  norm_num

/-! ### Endpoint exclusion and direction symmetry -/

theorem not_mem_pointsIndices_left {A B : ℝ} {i : ℤ} (hA : A = (i : ℝ)) :
    i ∉ pointsIndices A B := by
  rw [mem_pointsIndices]
  rintro ⟨h1, h2⟩
  rcases le_total A B with h | h
  · rw [min_eq_left h, hA, Int.floor_intCast] at h1
    omega
  · rw [max_eq_left h, hA, Int.ceil_intCast] at h2
    omega

theorem not_mem_pointsIndices_right {A B : ℝ} {i : ℤ} (hB : B = (i : ℝ)) :
    i ∉ pointsIndices A B := by
  rw [mem_pointsIndices]
  rintro ⟨h1, h2⟩
  rcases le_total A B with h | h
  · rw [max_eq_right h, hB, Int.ceil_intCast] at h2
    omega
  · rw [min_eq_right h, hB, Int.floor_intCast] at h1
    omega

theorem endpoint_not_mem_points {inc a b : ℝ} (hinc : inc ≠ 0) :
    a ∉ points inc a b ∧ b ∉ points inc a b := by
  constructor
  · intro hmem
    simp only [points, List.mem_map] at hmem
    obtain ⟨i, hi, hie⟩ := hmem
    have ha : a / inc = (i : ℝ) := by
      rw [← hie, mul_comm, mul_div_assoc, div_self hinc, mul_one]
    exact not_mem_pointsIndices_left ha hi
  · intro hmem
    simp only [points, List.mem_map] at hmem
    obtain ⟨i, hi, hie⟩ := hmem
    have hb : b / inc = (i : ℝ) := by
      rw [← hie, mul_comm, mul_div_assoc, div_self hinc, mul_one]
    exact not_mem_pointsIndices_right hb hi

theorem points_swap (inc a b : ℝ) :
    points inc b a = (points inc a b).reverse := by
  unfold points
  rw [pointsIndices_swap, List.map_reverse]

/-! ### Claim theorems for the path approximator -/

/-- **C1**: for every circle (radius r) and tolerance t the approximator fixes
a single `increment = TAU / n` with `n = ceil(max(3, π / acos(1 − t/r)))` —
radius 1 with tolerances 0.5, 0.1, 0.01 gives n = 3, 7, 23 — and for every
boundary, every sample parameter emitted is an integer multiple
`k · increment` of that increment: no call can produce a parameter outside
the lattice. -/
theorem c1_single_increment_lattice :
    (∀ radius tolerance : ℝ,
      increment radius tolerance = 2 * π / numVertices radius tolerance) ∧
    numVertices 1 0.5 = 3 ∧ numVertices 1 0.1 = 7 ∧ numVertices 1 0.01 = 23 ∧
    ∀ radius tolerance a b : ℝ,
      (points (increment radius tolerance) a b).Forall
        (fun p => ∃ k : ℤ, p = increment radius tolerance * (k : ℝ)) :=
  ⟨fun _ _ => rfl, numVertices_one_half, numVertices_one_tenth,
    numVertices_one_hundredth, fun _ _ a b => points_lattice _ a b⟩

/-- **C4**: for every circle path, tolerance, and boundary `[a, b]`, the
returned sample sequence never contains a parameter equal to either boundary
endpoint. -/
theorem c4_endpoints_never_sampled (radius tolerance a b : ℝ) :
    a ∉ points (increment radius tolerance) a b ∧
    b ∉ points (increment radius tolerance) a b :=
  endpoint_not_mem_points (ne_of_gt (increment_pos radius tolerance))

/-- Witness for C4 at a concrete input. -/
theorem c4_endpoints_never_sampled_witness :
    (0 : ℝ) ∉ points (increment 1 0.5) 0 (2 * π) :=
  (c4_endpoints_never_sampled 1 0.5 0 (2 * π)).1

/-- **C5**: for every circle path, tolerance, and endpoints `a`, `b`,
approximating boundary `[b, a]` returns exactly the reverse of the sequence
returned for `[a, b]`. -/
theorem c5_direction_symmetry (radius tolerance a b : ℝ) :
    points (increment radius tolerance) b a
      = (points (increment radius tolerance) a b).reverse :=
  points_swap _ _ _

/-! ### Concrete sample sequences for radius 1, tolerance 0.375
(`n = 4`, `increment = TAU/4 = π/2`), mirroring `tests::points_for_circle` -/

theorem increment_test_tolerance : increment 1 0.375 = π / 2 := by
  unfold increment
  rw [numVertices_test_tolerance]
  ring

theorem pointsIndices_0_4 : pointsIndices 0 4 = [1, 2, 3] := by
  unfold pointsIndices
  have hmin : min (0 : ℝ) 4 = 0 := by norm_num
  have hmax : max (0 : ℝ) 4 = 4 := by norm_num
  rw [hmin, hmax, if_neg (by norm_num)]
  norm_num
  decide

theorem pointsIndices_2_4 : pointsIndices 2 4 = [3] := by
  unfold pointsIndices
  have hmin : min (2 : ℝ) 4 = 2 := by norm_num
  have hmax : max (2 : ℝ) 4 = 4 := by norm_num
  rw [hmin, hmax, if_neg (by norm_num)]
  norm_num
  decide

theorem pointsIndices_4_0 : pointsIndices 4 0 = [3, 2, 1] := by
  unfold pointsIndices
  have hmin : min (4 : ℝ) 0 = 0 := by norm_num
  have hmax : max (4 : ℝ) 0 = 4 := by norm_num
  rw [hmin, hmax, if_pos (by norm_num)]
  norm_num
  decide

theorem pointsIndices_four_div_pi_4 : pointsIndices (4 / π) 4 = [2, 3] := by
  unfold pointsIndices
  have hpi_lb := Real.pi_gt_d6
  have hpi_ub := Real.pi_lt_d6
  have hle : (4 / π : ℝ) ≤ 4 := by
    rw [div_le_iff₀ Real.pi_pos]
    nlinarith
  have hmin : min (4 / π : ℝ) 4 = 4 / π := min_eq_left hle
  have hmax : max (4 / π : ℝ) 4 = 4 := max_eq_right hle
  have hfloor : ⌊(4 / π : ℝ)⌋ = 1 := by
    rw [Int.floor_eq_iff]
    constructor
    · push_cast
      rw [le_div_iff₀ Real.pi_pos]
      linarith
    · push_cast
      rw [div_lt_iff₀ Real.pi_pos]
      linarith
  rw [hmin, hmax, if_neg (not_lt.mpr hle), hfloor]
  norm_num
  decide

theorem points_pi_half_full : points (π / 2) 0 (2 * π) =
    [π / 2 * 1, π / 2 * 2, π / 2 * 3] := by
  unfold points
  have h1 : (0 : ℝ) / (π / 2) = 0 := zero_div _
  have h2 : (2 * π) / (π / 2) = 4 := by
    field_simp
    ring
  rw [h1, h2, pointsIndices_0_4]
  norm_num

theorem points_pi_half_from_two : points (π / 2) 2 (2 * π) =
    [π / 2 * 2, π / 2 * 3] := by
  unfold points
  have h1 : (2 : ℝ) / (π / 2) = 4 / π := by
    rw [div_div_eq_mul_div]
    ring
  have h2 : (2 * π) / (π / 2) = 4 := by
    field_simp
    ring
  rw [h1, h2, pointsIndices_four_div_pi_4]
  norm_num

theorem points_pi_half_from_two_increments :
    points (π / 2) (2 * (π / 2)) (2 * π) = [π / 2 * 3] := by
  unfold points
  have h1 : (2 * (π / 2)) / (π / 2) = 2 := by
    rw [mul_div_assoc, div_self (by positivity : (π / 2 : ℝ) ≠ 0), mul_one]
  have h2 : (2 * π) / (π / 2) = 4 := by
    field_simp
    ring
  rw [h1, h2, pointsIndices_2_4]
  norm_num

theorem points_pi_half_reversed : points (π / 2) (2 * π) 0 =
    [π / 2 * 3, π / 2 * 2, π / 2 * 1] := by
  unfold points
  have h1 : (0 : ℝ) / (π / 2) = 0 := zero_div _
  have h2 : (2 * π) / (π / 2) = 4 := by
    field_simp
    ring
  rw [h1, h2, pointsIndices_4_0]
  norm_num

/-- **C6** (counterexample): the claim says boundary `[2·increment, 2π]`
yields lattice indices `{2, 3}`; the code yields only `{3}` there (the test's
boundary start `2.` is the raw parameter `2.0`, not two increments), so the
claim as stated is false. -/
theorem c6_counterexample :
    points (increment 1 0.375) (2 * increment 1 0.375) (2 * π)
      ≠ [increment 1 0.375 * 2, increment 1 0.375 * 3] := by
  rw [increment_test_tolerance, points_pi_half_from_two_increments]
  intro h
  have := congrArg List.length h
  simp at this

/-- **C6** (amended): for radius 1 and tolerance 0.375
(`n = 4`, `increment = TAU/4 = π/2`): boundary `[0, 2π]` yields the samples at
lattice indices `{1, 2, 3}`; boundary `[2, 2π]` (raw start parameter `2.0`)
yields `{2, 3}`; and the reversed boundary `[2π, 0]` yields `{3, 2, 1}` in
that order. -/
theorem c6_amended_range_filtering :
    numVertices 1 0.375 = 4 ∧
    increment 1 0.375 = π / 2 ∧
    points (increment 1 0.375) 0 (2 * π)
      = [increment 1 0.375 * 1, increment 1 0.375 * 2, increment 1 0.375 * 3] ∧
    points (increment 1 0.375) 2 (2 * π)
      = [increment 1 0.375 * 2, increment 1 0.375 * 3] ∧
    points (increment 1 0.375) (2 * π) 0
      = [increment 1 0.375 * 3, increment 1 0.375 * 2, increment 1 0.375 * 1] := by
  refine ⟨numVertices_test_tolerance, increment_test_tolerance, ?_, ?_, ?_⟩
  · rw [increment_test_tolerance, points_pi_half_full]
  · rw [increment_test_tolerance, points_pi_half_from_two]
  · rw [increment_test_tolerance, points_pi_half_reversed]

/-! ## Partial-object merging (crates/fj-kernel/src/partial/merge.rs)

A `Handle<T>` compares by identity (`self.id() == other.into().id()`); a Rust
panic is embedded as `Except.error` carrying the panic message, so a panicking
merge produces no merged result at all. -/

/-- A store handle: an object identity plus the referenced payload. -/
structure HandleM (α : Type) where
  id : Nat
  payload : α

/-- `MergeWith for Handle<T>`: return `self` when the identities agree,
panic (`"Can't merge two distinct objects"`) otherwise. -/
def mergeWithHandle {α : Type} (self other : HandleM α) :
    Except String (HandleM α) :=
  if self.id = other.id then Except.ok self
  else Except.error "Cannot merge two distinct objects"

/-- Rust's `Option::xor`: `Some` iff exactly one argument is `Some`. -/
def optionXor {α : Type} : Option α → Option α → Option α
  | some x, none => some x
  | none, some y => some y
  | _, _ => none

/-- `MergeWith for Option<T>`: equal options are returned unchanged, two
`Some`s with different contents panic, otherwise the unique `Some` (or
`None`) survives via `xor`. -/
def mergeWithOption {α : Type} [DecidableEq α] (self other : Option α) :
    Except String (Option α) :=
  if self = other then Except.ok self
  else if self.isSome && other.isSome then
    Except.error "Cannot merge two Options that are both Some"
  else Except.ok (optionXor self other)

/-- **C8**: `merge_with` on two handles returns the first handle unchanged
exactly when the identities agree and panics (stops with an error, producing
no merged result) when they differ; `merge_with` on two options panics
exactly when both are `Some` with unequal contents, and otherwise returns the
shared value or the unique `Some`. -/
theorem c8_merge_with_contract {α β : Type} [DecidableEq β] :
    (∀ a b : HandleM α,
      mergeWithHandle a b = if a.id = b.id then Except.ok a
        else Except.error "Cannot merge two distinct objects") ∧
    (∀ x y : β,
      mergeWithOption (some x) (some y) = if x = y then Except.ok (some x)
        else Except.error "Cannot merge two Options that are both Some") ∧
    (∀ o : Option β, mergeWithOption o none = Except.ok o) ∧
    (∀ o : Option β, mergeWithOption none o = Except.ok o) := by
  refine ⟨fun a b => rfl, fun x y => ?_, fun o => ?_, fun o => ?_⟩
  · rcases eq_or_ne x y with h | h
    · subst h
      rw [if_pos rfl]
      exact if_pos rfl
    · rw [if_neg h]
      unfold mergeWithOption
      rw [if_neg (by simpa using h)]
      rfl
  · cases o with
    | none => rfl
    | some x =>
      unfold mergeWithOption
      rw [if_neg (by simp)]
      rfl
  · cases o with
    | none => rfl
    | some x =>
      unfold mergeWithOption
      rw [if_neg (by simp)]
      rfl

/-! ## Transform (crates/fj-core/src/algorithms/transform/edge.rs)

`TransformObject for HalfEdge` rebuilds the half-edge from its untouched
surface-local path and boundary plus transformed copies of its three
children.  The child transforms (curve, start vertex, global edge) live in
sibling modules and are abstracted as a state-threading function `tChild`;
the state `σ` stands for the `(&mut Services, &mut TransformCache)` pair
threaded through the calls in source order. -/

/-- `SurfacePath` (geometry/path.rs): the closed variant set
`{Circle, Line}`, with a circle's center and two radius vectors and a line's
origin and direction in surface coordinates. -/
inductive SurfacePathM where
  | circle (center a b : ℝ × ℝ) : SurfacePathM
  | line (origin direction : ℝ × ℝ) : SurfacePathM

/-- `BoundaryOnCurve`: an ordered pair of curve-local coordinates. -/
structure BoundaryOnCurveM where
  inner : ℝ × ℝ

/-- `HalfEdge`: surface-local path and boundary plus handles (identities) of
the curve, start vertex, and global form. -/
structure HalfEdgeM where
  path : SurfacePathM
  boundary : BoundaryOnCurveM
  curve : Nat
  startVertex : Nat
  globalForm : Nat

/-- `GlobalEdge` holds no data at all. -/
structure GlobalEdgeM where

/-- `GlobalEdge::new`. -/
def GlobalEdgeM.new : GlobalEdgeM := ⟨⟩

/-- `TransformObject for HalfEdge`: the path and boundary are taken over
verbatim ("Don't need to transform the path, as that's defined in surface
coordinates."), the three children are transformed in source order through
the shared mutable state. -/
def transformHalfEdge {σ : Type} (tChild : Nat → σ → Nat × σ)
    (e : HalfEdgeM) (s : σ) : HalfEdgeM × σ :=
  let c := tChild e.curve s
  let v := tChild e.startVertex c.2
  let g := tChild e.globalForm v.2
  (⟨e.path, e.boundary, c.1, v.1, g.1⟩, g.2)

/-- `TransformObject for GlobalEdge`: "There's nothing to actually transform
here, as `GlobalEdge` holds no data" — a fresh data-free object is returned
to stand for the new identity, every argument ignored. -/
def transformGlobalEdge {τ σ κ : Type} (_transform : τ) (_services : σ)
    (_cache : κ) : GlobalEdgeM :=
  GlobalEdgeM.new

/-- **C7**: for every half-edge and every child-transform, the transformed
half-edge's surface-local path and boundary are exactly the original's, and
only the curve, start vertex, and global edge are replaced by their
transformed copies (threaded in source order); transforming a `GlobalEdge`
transforms no data — the result is independent of the transform, the
services, and the cache — and `GlobalEdge` carries no data at all. -/
theorem c7_transform_preserves_local_geometry :
    (∀ (σ : Type) (tChild : Nat → σ → Nat × σ) (e : HalfEdgeM) (s : σ),
      (transformHalfEdge tChild e s).1.path = e.path ∧
      (transformHalfEdge tChild e s).1.boundary = e.boundary ∧
      (transformHalfEdge tChild e s).1.curve = (tChild e.curve s).1 ∧
      (transformHalfEdge tChild e s).1.startVertex
        = (tChild e.startVertex (tChild e.curve s).2).1 ∧
      (transformHalfEdge tChild e s).1.globalForm
        = (tChild e.globalForm
            (tChild e.startVertex (tChild e.curve s).2).2).1) ∧
    (∀ (τ σ κ τ' σ' κ' : Type) (t : τ) (sv : σ) (c : κ) (t' : τ') (sv' : σ')
      (c' : κ'),
      transformGlobalEdge t sv c = transformGlobalEdge t' sv' c') ∧
    (∀ g g' : GlobalEdgeM, g = g') :=
  ⟨fun _ _ _ _ => ⟨rfl, rfl, rfl, rfl, rfl⟩,
   fun _ _ _ _ _ _ _ _ _ _ _ _ => rfl,
   fun _ _ => rfl⟩

/-! ## Operation cache (spec §4.4; `TransformCache` / `SweepCache`)

The cache types themselves live in `transform/mod.rs` and `sweep/mod.rs`,
which are not among the sources; the caching discipline is modelled from the
spec.  `sweep/sketch.rs` shows the walk structure: one cache is threaded
through every face of the solid. -/

/-- Modelled from the spec: a per-invocation operation cache mapping an
object identity to its already-computed result.  `log` records the
identities whose per-node computation was actually performed, one entry per
computation. -/
structure OpCache (α : Type) where
  entries : List (Nat × α)
  log : List Nat

def OpCache.empty {α : Type} : OpCache α := ⟨[], []⟩

/-- Modelled from the spec: "Before recursing into a child, look up its
identity in the cache; on hit, reuse; on miss, compute and insert." -/
def cachedOp {α : Type} (compute : Nat → α) (h : Nat) (c : OpCache α) :
    α × OpCache α :=
  match c.entries.lookup h with
  | some r => (r, c)
  | none => (compute h, ⟨(h, compute h) :: c.entries, c.log ++ [h]⟩)

/-- Walking one face: every referenced edge handle is transformed through
the cache, in order. -/
def opFace {α : Type} (compute : Nat → α) :
    List Nat → OpCache α → List α × OpCache α
  | [], c => ([], c)
  | h :: rest, c =>
    let rc := cachedOp compute h c
    let rs := opFace compute rest rc.2
    (rc.1 :: rs.1, rs.2)

/-- A whole-solid operation: every face is walked with the single
per-invocation cache (cf. `Sweep for (Handle<Sketch>, Handle<Surface>)`,
which threads one `SweepCache` through all faces of the sketch). -/
def opSolid {α : Type} (compute : Nat → α) :
    List (List Nat) → OpCache α → List (List α) × OpCache α
  | [], c => ([], c)
  | f :: rest, c =>
    let rf := opFace compute f c
    let rs := opSolid compute rest rf.2
    (rf.1 :: rs.1, rs.2)

/-- Cache well-formedness: entries hold exactly the computed results, the
key set is exactly the computation log, and no identity was computed twice. -/
def CacheWF {α : Type} (compute : Nat → α) (c : OpCache α) : Prop :=
  (∀ h r, c.entries.lookup h = some r → r = compute h) ∧
  (∀ h : Nat, (c.entries.lookup h).isSome ↔ h ∈ c.log) ∧
  c.log.Nodup

theorem cacheWF_empty {α : Type} (compute : Nat → α) :
    CacheWF compute (OpCache.empty (α := α)) := by
  refine ⟨?_, ?_, ?_⟩ <;> simp [OpCache.empty]

theorem lookup_cons_eq {α : Type} [DecidableEq α] (k a : α) {β : Type}
    (b : β) (l : List (α × β)) :
    List.lookup k ((a, b) :: l) = if k = a then some b else List.lookup k l := by
  simp only [List.lookup]
  rcases eq_or_ne k a with h | h
  · rw [if_pos h]
    have hb : (k == a) = true := beq_iff_eq.mpr h
    rw [hb]
  · rw [if_neg h]
    have hb : (k == a) = false := beq_eq_false_iff_ne.mpr h
    rw [hb]

theorem cachedOp_fst {α : Type} {compute : Nat → α} {h : Nat} {c : OpCache α}
    (hwf : CacheWF compute c) : (cachedOp compute h c).1 = compute h := by
  unfold cachedOp
  cases hl : c.entries.lookup h with
  | none => rfl
  | some r => exact hwf.1 h r hl

theorem cachedOp_wf {α : Type} {compute : Nat → α} {h : Nat} {c : OpCache α}
    (hwf : CacheWF compute c) : CacheWF compute (cachedOp compute h c).2 := by
  obtain ⟨hw1, hw2, hw3⟩ := hwf
  unfold cachedOp
  cases hl : c.entries.lookup h with
  | some r => exact ⟨hw1, hw2, hw3⟩
  | none =>
    have hnotmem : h ∉ c.log := by
      rw [← hw2 h, hl]
      simp
    refine ⟨?_, ?_, ?_⟩
    · intro v r hv
      rw [lookup_cons_eq] at hv
      split at hv
      · rename_i hveq
        injection hv with hv'
        rw [← hv', hveq]
      · exact hw1 v r hv
    · intro v
      rw [lookup_cons_eq]
      rcases eq_or_ne v h with hveq | hvne
      · subst hveq
        simp
      · rw [if_neg hvne]
        rw [hw2 v]
        simp [hvne]
    · rw [List.nodup_append]
      refine ⟨hw3, List.nodup_singleton h, ?_⟩
      intro a ha hb
      rw [List.mem_singleton] at hb
      subst hb
      exact hnotmem ha

theorem cachedOp_log_mem {α : Type} {compute : Nat → α} {h : Nat}
    {c : OpCache α} (hwf : CacheWF compute c) (x : Nat) :
    x ∈ (cachedOp compute h c).2.log ↔ x ∈ c.log ∨ x = h := by
  unfold cachedOp
  cases hl : c.entries.lookup h with
  | some r =>
    have hmem : h ∈ c.log := by
      rw [← hwf.2.1 h, hl]
      simp
    constructor
    · exact fun hx => Or.inl hx
    · rintro (hx | rfl)
      · exact hx
      · exact hmem
  | none => simp

theorem opFace_spec {α : Type} (compute : Nat → α) (f : List Nat) :
    ∀ c : OpCache α, CacheWF compute c →
      (opFace compute f c).1 = f.map compute ∧
      CacheWF compute (opFace compute f c).2 ∧
      (∀ x, x ∈ (opFace compute f c).2.log ↔ x ∈ c.log ∨ x ∈ f) := by
  induction f with
  | nil =>
    intro c hwf
    exact ⟨rfl, hwf, fun x => by simp [opFace]⟩
  | cons h rest ih =>
    intro c hwf
    obtain ⟨ih1, ih2, ih3⟩ := ih (cachedOp compute h c).2 (cachedOp_wf hwf)
    simp only [opFace]
    refine ⟨?_, ih2, ?_⟩
    · rw [cachedOp_fst hwf, ih1, List.map_cons]
    · intro x
      rw [ih3 x, cachedOp_log_mem hwf x, List.mem_cons]
      tauto

theorem opSolid_spec {α : Type} (compute : Nat → α) (faces : List (List Nat)) :
    ∀ c : OpCache α, CacheWF compute c →
      (opSolid compute faces c).1 = faces.map (fun f => f.map compute) ∧
      CacheWF compute (opSolid compute faces c).2 ∧
      (∀ x, x ∈ (opSolid compute faces c).2.log ↔
        x ∈ c.log ∨ x ∈ faces.flatten) := by
  induction faces with
  | nil =>
    intro c hwf
    exact ⟨rfl, hwf, fun x => by simp [opSolid]⟩
  | cons f rest ih =>
    intro c hwf
    obtain ⟨hf1, hf2, hf3⟩ := opFace_spec compute f c hwf
    obtain ⟨ih1, ih2, ih3⟩ := ih (opFace compute f c).2 hf2
    simp only [opSolid]
    refine ⟨?_, ih2, ?_⟩
    · rw [hf1, ih1, List.map_cons]
    · intro x
      rw [ih3 x, hf3 x, List.flatten_cons, List.mem_append]
      tauto

/-- **C2**: a graph-walking operation run with one cache per invocation
performs the per-node computation of every reachable identity exactly once
(the computation log from an empty cache contains each referenced identity
exactly once, and unreferenced identities zero times), and every parent
receives the identical single result: the per-face result lists are exactly
the faces mapped through `compute`, so two faces sharing one edge handle both
reference the result of that one computation. -/
theorem c2_operation_cache_computes_once {α : Type} (compute : Nat → α)
    (faces : List (List Nat)) (x : Nat) :
    (opSolid compute faces OpCache.empty).1
      = faces.map (fun f => f.map compute) ∧
    (opSolid compute faces OpCache.empty).2.log.count x
      = if x ∈ faces.flatten then 1 else 0 := by
  obtain ⟨h1, h2, h3⟩ :=
    opSolid_spec compute faces OpCache.empty (cacheWF_empty compute)
  refine ⟨h1, ?_⟩
  have hmem : x ∈ (opSolid compute faces OpCache.empty).2.log ↔
      x ∈ faces.flatten := by
    rw [h3 x]
    simp [OpCache.empty]
  rw [List.count_eq_of_nodup h2.2.2]
  by_cases hx : x ∈ faces.flatten
  · rw [if_pos (hmem.mpr hx), if_pos hx]
  · rw [if_neg (fun hc => hx (hmem.mp hc)), if_neg hx]

/-! ## Triangulation (crates/fj-core/src/algorithms/triangulate/mod.rs)

The Delaunay triangulator (`delaunay.rs`) and the point-in-polygon test
(`polygon.rs`) are sibling modules not among the sources.  The triangulator
is abstracted as a parameter `delaunay`; the containment test is modelled
from the spec.  Surface-local points `P`, global points `G`, and colors are
abstract. -/

/-- A triangulation point: paired surface-local and global form
(`TriangulationPoint { point_surface, point_global }`; the cycle points'
`local_form` / `global_form` carry the same pairing). -/
structure TriPoint (P G : Type) where
  surface : P
  global : G

/-- `FaceApprox`: one exterior cycle, the interior (hole) cycles, the
optional inherited color, and the coordinate handedness. -/
structure FaceApproxM (P G : Type) where
  exterior : List (TriPoint P G)
  interiors : List (List (TriPoint P G))
  color : Option Nat
  coordHandedness : Bool

/-- The polygon `Polygon::new().with_exterior(..).with_interiors(..)` built
from the cycles' surface-local points. -/
structure PolygonM (P : Type) where
  exterior : List P
  interiors : List (List P)

/-- `face_as_polygon` from `Triangulate for FaceApprox`. -/
def facePolygon {P G : Type} (f : FaceApproxM P G) : PolygonM P :=
  ⟨f.exterior.map TriPoint.surface, f.interiors.map (List.map TriPoint.surface)⟩

/-- Modelled from the spec: `polygon.rs` is not among the sources.  "Retain
only those Delaunay triangles whose representative interior point lies
strictly inside this polygon (inside the exterior, outside every hole)."
The point-in-loop test `inside` and the representative interior point `rep`
are abstract parameters. -/
def containsTriangle {P : Type} (inside : List P → P → Bool)
    (rep : P × P × P → P) (poly : PolygonM P) (t : P × P × P) : Bool :=
  inside poly.exterior (rep t) &&
    poly.interiors.all (fun hole => !inside hole (rep t))

/-- The retained triangles: the Delaunay output filtered by the containment
test (`triangles.retain(|triangle| face_as_polygon.contains_triangle(..))`). -/
def retainedTriangles {P G : Type}
    (delaunay : List (List (TriPoint P G)) → Bool →
      List (TriPoint P G × TriPoint P G × TriPoint P G))
    (containsT : PolygonM P → P × P × P → Bool) (f : FaceApproxM P G) :
    List (TriPoint P G × TriPoint P G × TriPoint P G) :=
  (delaunay (f.exterior :: f.interiors) f.coordHandedness).filter
    (fun t => containsT (facePolygon f)
      (t.1.surface, t.2.1.surface, t.2.2.surface))

/-- `Triangulate for FaceApprox::triangulate_into_mesh`: run Delaunay over
the cycles (exterior first), retain the triangles passing the containment
test, then push each retained triangle's global points with the face color
into the mesh. -/
def triangulateFace {P G : Type}
    (delaunay : List (List (TriPoint P G)) → Bool →
      List (TriPoint P G × TriPoint P G × TriPoint P G))
    (containsT : PolygonM P → P × P × P → Bool)
    (f : FaceApproxM P G) (mesh : List ((G × G × G) × Nat)) :
    List ((G × G × G) × Nat) :=
  mesh ++ (retainedTriangles delaunay containsT f).map
    (fun t => ((t.1.global, t.2.1.global, t.2.2.global), f.color.getD 0))

/-- **C3**: a Delaunay triangle is pushed into the output mesh iff it passes
the containment test against the polygon built from the exterior loop minus
the hole loops: the mesh gains exactly the retained triangles, a triangle is
retained iff it came from the Delaunay output and the containment test
accepts it, and — with the containment test of the spec — every retained
triangle's representative interior point lies outside every hole, so no
emitted triangle lies inside a hole region. -/
theorem c3_triangles_filtered_against_polygon {P G : Type}
    (delaunay : List (List (TriPoint P G)) → Bool →
      List (TriPoint P G × TriPoint P G × TriPoint P G))
    (inside : List P → P → Bool) (rep : P × P × P → P)
    (f : FaceApproxM P G) (mesh : List ((G × G × G) × Nat)) :
    (triangulateFace delaunay (containsTriangle inside rep) f mesh
      = mesh ++ (retainedTriangles delaunay (containsTriangle inside rep) f).map
          (fun t => ((t.1.global, t.2.1.global, t.2.2.global), f.color.getD 0))) ∧
    (∀ t, t ∈ retainedTriangles delaunay (containsTriangle inside rep) f ↔
      t ∈ delaunay (f.exterior :: f.interiors) f.coordHandedness ∧
      containsTriangle inside rep (facePolygon f)
        (t.1.surface, t.2.1.surface, t.2.2.surface) = true) ∧
    (retainedTriangles delaunay (containsTriangle inside rep) f).Forall
      (fun t => ∀ hole ∈ (facePolygon f).interiors,
        inside hole (rep (t.1.surface, t.2.1.surface, t.2.2.surface)) = false) := by
  refine ⟨rfl, fun t => List.mem_filter, ?_⟩
  rw [List.forall_iff_forall_mem]
  intro t ht
  have hc := (List.mem_filter.mp ht).2
  unfold containsTriangle at hc
  rw [Bool.and_eq_true] at hc
  have hall := hc.2
  rw [List.all_eq_true] at hall
  intro hole hhole
  have := hall hole hhole
  rwa [Bool.not_eq_true'] at this

/-! ## Mesh (fj/src/mesh.rs)

Vertices (`Point<f32, 3>`, stored behind the equality-preserving wrapper
`R32`) are modelled as an arbitrary type with decidable equality,
`graphics::Index` as `Nat`, and the `HashMap` as an association list (a key
is only ever inserted when absent).  A Rust panic is embedded as
`Except.error`; in the source the three `assert_ne!` checks precede every
insertion, so a panicking call has not touched the mesh. -/

structure MeshM (α : Type) where
  indicesByVertex : List (α × Nat)
  vertices : List α
  triangles : List (Nat × Nat × Nat)

/-- `Mesh::new`. -/
def MeshM.new {α : Type} : MeshM α := ⟨[], [], []⟩

/-- `Mesh::index_for_vertex`: look the vertex up; on a miss, the index is the
current vertex count, the vertex is pushed, and the entry recorded. -/
def indexForVertex {α : Type} [DecidableEq α] (m : MeshM α) (v : α) :
    Nat × MeshM α :=
  match m.indicesByVertex.lookup v with
  | some i => (i, m)
  | none =>
    (m.vertices.length,
      { m with
        vertices := m.vertices ++ [v]
        indicesByVertex := (v, m.vertices.length) :: m.indicesByVertex })

/-- `Mesh::triangle`: the three `assert_ne!` checks run first; only then are
the three indices resolved and the index triple appended. -/
def MeshM.triangle {α : Type} [DecidableEq α] (m : MeshM α) (v0 v1 v2 : α) :
    Except String (MeshM α) :=
  if v0 = v1 then Except.error "assertion failed: v0 != v1"
  else if v0 = v2 then Except.error "assertion failed: v0 != v2"
  else if v1 = v2 then Except.error "assertion failed: v1 != v2"
  else
    let r0 := indexForVertex m v0
    let r1 := indexForVertex r0.2 v1
    let r2 := indexForVertex r1.2 v2
    Except.ok { r2.2 with triangles := r2.2.triangles ++ [(r0.1, r1.1, r2.1)] }

/-- One public-interface step: a successful `triangle` call replaces the
mesh, a panicking one aborts leaving the mesh as it was. -/
def applyTriangle {α : Type} [DecidableEq α] (m : MeshM α) (v0 v1 v2 : α) :
    MeshM α :=
  match m.triangle v0 v1 v2 with
  | Except.ok m' => m'
  | Except.error _ => m

/-- Every mesh reachable through the public interface: `Mesh::new` followed
by a sequence of `triangle` calls. -/
def buildMesh {α : Type} [DecidableEq α] (ops : List (α × α × α)) : MeshM α :=
  ops.foldl (fun m op => applyTriangle m op.1 op.2.1 op.2.2) MeshM.new

/-- The vertex-index map resolves only to positions actually holding that
vertex. -/
def LookupWF {α : Type} [DecidableEq α] (m : MeshM α) : Prop :=
  ∀ v i, m.indicesByVertex.lookup v = some i → m.vertices[i]? = some v

/-- A stored index triple denotes three pairwise-distinct vertices. -/
def TriOK {α : Type} (m : MeshM α) (t : Nat × Nat × Nat) : Prop :=
  ∃ w0 w1 w2, m.vertices[t.1]? = some w0 ∧ m.vertices[t.2.1]? = some w1 ∧
    m.vertices[t.2.2]? = some w2 ∧ w0 ≠ w1 ∧ w0 ≠ w2 ∧ w1 ≠ w2

def MeshWF {α : Type} [DecidableEq α] (m : MeshM α) : Prop :=
  LookupWF m ∧ ∀ t ∈ m.triangles, TriOK m t

theorem getElem?_append_of_some {α : Type} {l l' : List α} {i : ℕ} {v : α}
    (h : l[i]? = some v) : (l ++ l')[i]? = some v := by
  have hlt : i < l.length := by
    by_contra hge
    push_neg at hge
    rw [List.getElem?_eq_none hge] at h
    exact Option.noConfusion h
  rw [List.getElem?_append, if_pos hlt]
  exact h

theorem indexForVertex_vertices {α : Type} [DecidableEq α] (m : MeshM α)
    (v : α) : ∃ tail, (indexForVertex m v).2.vertices = m.vertices ++ tail := by
  unfold indexForVertex
  cases hl : m.indicesByVertex.lookup v with
  | some i => exact ⟨[], (List.append_nil _).symm⟩
  | none => exact ⟨[v], rfl⟩

theorem indexForVertex_triangles {α : Type} [DecidableEq α] (m : MeshM α)
    (v : α) : (indexForVertex m v).2.triangles = m.triangles := by
  unfold indexForVertex
  cases hl : m.indicesByVertex.lookup v with
  | some i => rfl
  | none => rfl

theorem indexForVertex_lookupWF {α : Type} [DecidableEq α] {m : MeshM α}
    (hwf : LookupWF m) (v : α) : LookupWF (indexForVertex m v).2 := by
  unfold indexForVertex
  cases hl : m.indicesByVertex.lookup v with
  | some i => exact hwf
  | none =>
    intro w j hw
    simp only at hw
    rw [lookup_cons_eq] at hw
    split at hw
    · rename_i hweq
      injection hw with hw'
      subst hweq
      rw [← hw']
      exact List.getElem?_concat_length _ _
    · exact getElem?_append_of_some (hwf w j hw)

theorem indexForVertex_get {α : Type} [DecidableEq α] {m : MeshM α}
    (hwf : LookupWF m) (v : α) :
    (indexForVertex m v).2.vertices[(indexForVertex m v).1]? = some v := by
  unfold indexForVertex
  cases hl : m.indicesByVertex.lookup v with
  | some i => exact hwf v i hl
  | none => exact List.getElem?_concat_length _ _

theorem triOK_mono {α : Type} {m m' : MeshM α} {t : Nat × Nat × Nat}
    (hv : ∃ tail, m'.vertices = m.vertices ++ tail) (h : TriOK m t) :
    TriOK m' t := by
  obtain ⟨tail, htail⟩ := hv
  obtain ⟨w0, w1, w2, h0, h1, h2, hne⟩ := h
  exact ⟨w0, w1, w2, htail ▸ getElem?_append_of_some h0,
    htail ▸ getElem?_append_of_some h1, htail ▸ getElem?_append_of_some h2, hne⟩

theorem triangle_ok_wf {α : Type} [DecidableEq α] {m m' : MeshM α}
    {v0 v1 v2 : α} (hwf : MeshWF m)
    (hok : MeshM.triangle m v0 v1 v2 = Except.ok m') : MeshWF m' := by
  unfold MeshM.triangle at hok
  split at hok
  · exact Except.noConfusion hok
  · split at hok
    · exact Except.noConfusion hok
    · split at hok
      · exact Except.noConfusion hok
      · rename_i h01 h02 h12
        injection hok with hok'
        subst hok'
        obtain ⟨hl, ht⟩ := hwf
        have hl0 : LookupWF (indexForVertex m v0).2 := indexForVertex_lookupWF hl v0
        have hl1 : LookupWF (indexForVertex (indexForVertex m v0).2 v1).2 :=
          indexForVertex_lookupWF hl0 v1
        have hl2 : LookupWF (indexForVertex
            (indexForVertex (indexForVertex m v0).2 v1).2 v2).2 :=
          indexForVertex_lookupWF hl1 v2
        obtain ⟨t0, he0⟩ := indexForVertex_vertices m v0
        obtain ⟨t1, he1⟩ := indexForVertex_vertices (indexForVertex m v0).2 v1
        obtain ⟨t2, he2⟩ := indexForVertex_vertices
          (indexForVertex (indexForVertex m v0).2 v1).2 v2
        constructor
        · exact hl2
        · intro t htmem
          simp only [List.mem_append] at htmem
          rcases htmem with hold | hnew
          · rw [indexForVertex_triangles, indexForVertex_triangles,
              indexForVertex_triangles] at hold
            have s1 : TriOK (indexForVertex m v0).2 t :=
              triOK_mono ⟨t0, he0⟩ (ht t hold)
            have s2 : TriOK (indexForVertex (indexForVertex m v0).2 v1).2 t :=
              triOK_mono ⟨t1, he1⟩ s1
            have s3 : TriOK (indexForVertex
                (indexForVertex (indexForVertex m v0).2 v1).2 v2).2 t :=
              triOK_mono ⟨t2, he2⟩ s2
            exact s3
          · rw [List.mem_singleton] at hnew
            subst hnew
            refine ⟨v0, v1, v2, ?_, ?_, ?_, h01, h02, h12⟩
            · show (indexForVertex _ v2).2.vertices[(indexForVertex m v0).1]?
                = some v0
              rw [he2, he1]
              exact getElem?_append_of_some
                (getElem?_append_of_some (indexForVertex_get hl v0))
            · show (indexForVertex _ v2).2.vertices[(indexForVertex
                (indexForVertex m v0).2 v1).1]? = some v1
              rw [he2]
              exact getElem?_append_of_some (indexForVertex_get hl0 v1)
            · exact indexForVertex_get hl1 v2

theorem applyTriangle_wf {α : Type} [DecidableEq α] {m : MeshM α}
    (hwf : MeshWF m) (v0 v1 v2 : α) : MeshWF (applyTriangle m v0 v1 v2) := by
  unfold applyTriangle
  cases hok : MeshM.triangle m v0 v1 v2 with
  | ok m' => exact triangle_ok_wf hwf hok
  | error e => exact hwf

theorem meshWF_new {α : Type} [DecidableEq α] : MeshWF (MeshM.new (α := α)) := by
  constructor
  · intro v i hv
    simp [MeshM.new] at hv
  · intro t ht
    simp [MeshM.new] at ht

theorem buildMesh_wf {α : Type} [DecidableEq α] (ops : List (α × α × α)) :
    MeshWF (buildMesh ops) := by
  unfold buildMesh
  suffices h : ∀ m : MeshM α, MeshWF m →
      MeshWF (ops.foldl (fun m op => applyTriangle m op.1 op.2.1 op.2.2) m) by
    exact h MeshM.new meshWF_new
  induction ops with
  | nil => exact fun m hm => hm
  | cons op rest ih =>
    intro m hm
    exact ih _ (applyTriangle_wf hm op.1 op.2.1 op.2.2)

/-- **C9**: every mesh reachable through the public interface (`Mesh::new`
followed by any sequence of `Mesh::triangle` calls) contains only
non-degenerate triangles: each stored index triple resolves to three
pairwise-distinct vertices, because `Mesh::triangle` rejects any call in
which two of the three vertex arguments coincide. -/
theorem c9_mesh_triangles_nondegenerate {α : Type} [DecidableEq α]
    (ops : List (α × α × α)) :
    (buildMesh ops).triangles.Forall (fun t => TriOK (buildMesh ops) t) := by
  rw [List.forall_iff_forall_mem]
  exact (buildMesh_wf ops).2

/-- Witness for C9: a concrete build whose stored triangles all resolve to
pairwise-distinct vertices. -/
theorem c9_mesh_triangles_nondegenerate_witness :
    (buildMesh [((0, 1, 2) : ℕ × ℕ × ℕ), (0, 1, 1), (1, 2, 3)]).triangles.Forall
      (fun t => TriOK (buildMesh [((0, 1, 2) : ℕ × ℕ × ℕ), (0, 1, 1), (1, 2, 3)]) t) :=
  c9_mesh_triangles_nondegenerate [(0, 1, 2), (0, 1, 1), (1, 2, 3)]

/-- **C10**: when `Mesh::triangle` panics because two supplied vertices
coincide, it reports the failure without producing a mesh — the equality
assertions run before any vertex is inserted or index triple appended — so
the mesh state is left completely unchanged. -/
theorem c10_failed_triangle_leaves_mesh_unchanged {α : Type} [DecidableEq α]
    (m : MeshM α) (v0 v1 v2 : α) :
    MeshM.triangle m v0 v0 v2 = Except.error "assertion failed: v0 != v1" ∧
    (∃ e, MeshM.triangle m v0 v1 v0 = Except.error e) ∧
    (∃ e, MeshM.triangle m v0 v1 v1 = Except.error e) ∧
    applyTriangle m v0 v0 v2 = m ∧
    applyTriangle m v0 v1 v0 = m ∧
    applyTriangle m v0 v1 v1 = m := by
  refine ⟨?_, ?_, ?_, ?_, ?_, ?_⟩
  · unfold MeshM.triangle
    rw [if_pos rfl]
  · unfold MeshM.triangle
    rcases eq_or_ne v0 v1 with h | h
    · exact ⟨_, by rw [if_pos h]⟩
    · exact ⟨_, by rw [if_neg h, if_pos rfl]⟩
  · unfold MeshM.triangle
    rcases eq_or_ne v0 v1 with h | h
    · exact ⟨_, by rw [if_pos h]⟩
    · exact ⟨_, by rw [if_neg h, if_neg h, if_pos rfl]⟩
  · unfold applyTriangle MeshM.triangle
    rw [if_pos rfl]
  · unfold applyTriangle MeshM.triangle
    rcases eq_or_ne v0 v1 with h | h
    · rw [if_pos h]
    · rw [if_neg h, if_pos rfl]
  · unfold applyTriangle MeshM.triangle
    rcases eq_or_ne v0 v1 with h | h
    · rw [if_pos h]
    · rw [if_neg h, if_neg h, if_pos rfl]

end Fornjot
